import Mathlib

/-!
# Verification of the opencode-cursor-auth protocol engine

Shallow embedding of the hand-rolled protobuf wire codec, the gRPC-web
envelope framer, and the tool-calling session policy of the repository,
together with proofs of the spec claims about them.

Byte buffers (`Uint8Array` in the source) are modelled as `List Nat`
whose entries are bytes (`< 256`); JavaScript `bigint` values are
modelled as `Nat` (all call sites use non-negative values); strings are
modelled by their UTF-8 byte sequences.
-/

namespace CursorAuth

/-! ## Wire codec: varint encoding (scripts, `encodeVarint`)

The source loops `while (v > 127n) { bytes.push(Number(v & 0x7fn) | 0x80); v >>= 7n }`
and finally pushes the last group.  The recursion is expressed with an
explicit fuel argument (the loop runs at most `v` times since `v` shrinks
by a factor of 128 each step), so that the definition is structural and
evaluates by `decide`/`rfl`. -/
def encodeVarintGo : Nat → Nat → List Nat
  | 0, v => [v]
  | fuel + 1, v => if 127 < v then (v % 128 + 128) :: encodeVarintGo fuel (v / 128) else [v]

/-- `encodeVarint` from the debug scripts (identical in all three files). -/
def encodeVarint (v : Nat) : List Nat := encodeVarintGo v v

/-- `encodeStringField` from `part_001`/`debug-message-comparison.ts`
(no empty-value check); the string argument is its UTF-8 byte list. -/
def encodeStringField (fieldNumber : Nat) (value : List Nat) : List Nat :=
  (((fieldNumber <<< 3) ||| 2) % 256) :: (encodeVarint value.length ++ value)

/-- `encodeInt32Field`: omits the field entirely when the value is zero. -/
def encodeInt32Field (fieldNumber : Nat) (value : Nat) : List Nat :=
  if value = 0 then []
  else (((fieldNumber <<< 3) ||| 0) % 256) :: encodeVarint value

/-- `encodeUint32Field` (`debug-message-comparison.ts`, `fetch-models.ts`):
omits the field entirely when the value is zero. -/
def encodeUint32Field (fieldNumber : Nat) (value : Nat) : List Nat :=
  if value = 0 then []
  else (((fieldNumber <<< 3) ||| 0) % 256) :: encodeVarint value

/-- `encodeMessageField`: a length-delimited field that is always emitted,
even when `data` is empty. -/
def encodeMessageField (fieldNumber : Nat) (data : List Nat) : List Nat :=
  (((fieldNumber <<< 3) ||| 2) % 256) :: (encodeVarint data.length ++ data)

/-- `encodeMessageFieldSkipEmpty` (`debug-message-comparison.ts`): the
variant that skips the field when `data` is empty. -/
def encodeMessageFieldSkipEmpty (fieldNumber : Nat) (data : List Nat) : List Nat :=
  if data.length = 0 then []
  else (((fieldNumber <<< 3) ||| 2) % 256) :: (encodeVarint data.length ++ data)

/-- The `agentRunRequest` built on the working request path
(`part_001` lines 236-243, `debug-message-comparison.ts` "WORKS" style):
field 1 (conversation state) is encoded with the non-skipping
`encodeMessageField` applied to the empty conversation state. -/
def agentRunRequestAlways (conversationAction modelDetails conversationId : List Nat) : List Nat :=
  encodeMessageField 1 [] ++ encodeMessageField 2 conversationAction ++
    encodeMessageField 3 modelDetails ++ encodeStringField 5 conversationId

/-- The `agentRunRequest2` built in `debug-message-comparison.ts`
("OLD - skipping empty" style): field 1 uses `encodeMessageFieldSkipEmpty`. -/
def agentRunRequestSkipEmpty (conversationAction modelDetails conversationId : List Nat) : List Nat :=
  encodeMessageFieldSkipEmpty 1 [] ++ encodeMessageField 2 conversationAction ++
    encodeMessageField 3 modelDetails ++ encodeStringField 5 conversationId

/-! ## Wire codec: varint decoding (`part_001`, `decodeVarint`)

The source iterates `data[offset + bytesRead]` starting from `offset`,
accumulating `value |= (byte & 0x7f) << shift`; it stops after a byte
whose continuation bit `0x80` is clear, or when the buffer ends.  The
loop is modelled structurally over the remaining bytes `data.drop offset`
with the running `shift`. -/
def decodeVarintGo : List Nat → Nat → Nat × Nat
  | [], _ => (0, 0)
  | byte :: rest, shift =>
    if byte &&& 0x80 = 0 then ((byte &&& 0x7f) <<< shift, 1)
    else
      let r := decodeVarintGo rest (shift + 7)
      (((byte &&& 0x7f) <<< shift) ||| r.1, r.2 + 1)

/-- `decodeVarint(data, offset) -> { value, bytesRead }`. -/
def decodeVarint (data : List Nat) (offset : Nat) : Nat × Nat :=
  decodeVarintGo (data.drop offset) 0

/-! ## Generic message decoder (`part_001`, `parseProtoFields`) -/

/-- A parsed field's value: raw bytes (wire types 1, 2, 5) or a varint
(wire type 0), mirroring the source's `Uint8Array | bigint`. -/
inductive ProtoValue where
  | bytes (b : List Nat)
  | varint (v : Nat)
deriving DecidableEq, Repr

/-- `ParsedField` from `part_001`. -/
structure ParsedField where
  fieldNumber : Nat
  wireType : Nat
  value : ProtoValue
  offset : Nat
  length : Nat
deriving DecidableEq, Repr

/-- The body of `parseProtoFields`'s `while (offset < data.length)` loop,
recursing on the bytes not yet consumed (`rem = data.drop offset`) while
carrying the absolute offset `off` for the recorded field positions.
Each iteration consumes at least the one tag byte, so fuel
`data.length` is enough for the whole input.  An unrecognized wire type
logs and `break`s in the source: here the loop just ends. -/
def parseGo : Nat → List Nat → Nat → List ParsedField
  | 0, _, _ => []
  | fuel + 1, rem, off =>
    if rem.isEmpty then []
    else
      let tagInfo := decodeVarintGo rem 0
      let fieldNumber := tagInfo.1 / 8
      let wireType := tagInfo.1 % 8
      let rem1 := rem.drop tagInfo.2
      if wireType = 2 then
        let lengthInfo := decodeVarintGo rem1 0
        let len := lengthInfo.1
        let value := (rem1.drop lengthInfo.2).take len
        let consumed := tagInfo.2 + lengthInfo.2 + len
        ⟨fieldNumber, 2, .bytes value, off, consumed⟩ ::
          parseGo fuel (rem.drop consumed) (off + consumed)
      else if wireType = 0 then
        let valueInfo := decodeVarintGo rem1 0
        let consumed := tagInfo.2 + valueInfo.2
        ⟨fieldNumber, 0, .varint valueInfo.1, off, consumed⟩ ::
          parseGo fuel (rem.drop consumed) (off + consumed)
      else if wireType = 1 then
        ⟨fieldNumber, 1, .bytes (rem1.take 8), off, 8⟩ ::
          parseGo fuel (rem.drop (tagInfo.2 + 8)) (off + tagInfo.2 + 8)
      else if wireType = 5 then
        ⟨fieldNumber, 5, .bytes (rem1.take 4), off, 4⟩ ::
          parseGo fuel (rem.drop (tagInfo.2 + 4)) (off + tagInfo.2 + 4)
      else []

/-- Canonical entry point for resuming the parse at suffix `rem`
(absolute offset `off`). -/
def parseFrom (rem : List Nat) (off : Nat) : List ParsedField :=
  parseGo rem.length rem off

/-- `parseProtoFields(data)` from `part_001`. -/
def parseProtoFields (data : List Nat) : List ParsedField :=
  parseFrom data 0

/-! ## Envelope framer (`part_001` main loop, lines 304-404)

A frame is `[flags:1][length:4 big-endian][payload:length]`.  The source
accumulates inbound chunks in `fullBuffer` and repeatedly extracts every
complete frame (`offset + 5 <= len` and `offset + 5 + length <= len`),
then retains the unconsumed remainder (`fullBuffer.slice(offset)`).

The source computes the length with JavaScript 32-bit arithmetic
`(b1 << 24) | (b2 << 16) | (b3 << 8) | b4`; for every frame whose payload
length is below `2^31` (first length byte below `0x80`) this coincides
with the unsigned value used here. -/
structure WireFrame where
  flags : Nat
  payload : List Nat
deriving DecidableEq, Repr

/-- The 4-byte big-endian length read from the frame header. -/
def frameLength (b1 b2 b3 b4 : Nat) : Nat :=
  (b1 <<< 24) ||| (b2 <<< 16) ||| (b3 <<< 8) ||| b4

/-- One pass of the frame-extraction loop: extract complete frames from
the front of `buf`, return them with the unconsumed remainder.  Each
extraction consumes at least the 5 header bytes, so fuel `buf.length`
covers every iteration the source loop performs. -/
def extractGo : Nat → List Nat → List WireFrame × List Nat
  | 0, buf => ([], buf)
  | fuel + 1, buf =>
    match buf with
    | b0 :: b1 :: b2 :: b3 :: b4 :: rest =>
      let len := frameLength b1 b2 b3 b4
      if len ≤ rest.length then
        let r := extractGo fuel (rest.drop len)
        (⟨b0, rest.take len⟩ :: r.1, r.2)
      else ([], buf)
    | _ => ([], buf)

/-- Extract all complete frames buffered in `buf`. -/
def extractAll (buf : List Nat) : List WireFrame × List Nat :=
  extractGo buf.length buf

/-- Feeding one inbound chunk to the framer: append to the buffered
remainder, extract all complete frames, retain the rest. -/
def framerFeed (st : List WireFrame × List Nat) (chunk : List Nat) :
    List WireFrame × List Nat :=
  let r := extractAll (st.2 ++ chunk)
  (st.1 ++ r.1, r.2)

/-- Run the framer over a whole sequence of inbound chunks, starting
from an empty buffer. -/
def framerRun (chunks : List (List Nat)) : List WireFrame × List Nat :=
  chunks.foldl framerFeed ([], [])

/-- Big-endian 4-byte length, as built in `fetch-models.ts`
(`(len >> 24) & 0xff`, ...). -/
def be4 (len : Nat) : List Nat :=
  [(len >>> 24) &&& 0xff, (len >>> 16) &&& 0xff, (len >>> 8) &&& 0xff, len &&& 0xff]

/-- Encode one frame: flag byte, 4-byte big-endian length, payload
(`fetch-models.ts` lines 13-20; `Uint8Array` stores the flag byte
modulo 256). -/
def encodeFrame (flags : Nat) (payload : List Nat) : List Nat :=
  flags % 256 :: (be4 payload.length ++ payload)

/-- A valid byte stream carrying the given sequence of frames. -/
def encodeFrames (fs : List WireFrame) : List Nat :=
  (fs.map fun f => encodeFrame f.flags f.payload).flatten

/-! ## Dynamic-value encoding (`fetch-models.ts`, `encodeProtobufValue`)

JSON-like values (`google.protobuf.Value` shape).  Strings and object
keys are modelled by their UTF-8 byte sequences (`TextEncoder`); the
`list`/`obj` payloads are mutual inductives so every recursion below is
structural.  JavaScript numbers are IEEE-754 doubles; the codec below
models `DataView.setFloat64` exactly on the integers this development
quantifies over (those with magnitude at most `2^53`, which doubles
represent exactly). -/
mutual
inductive DynValue where
  | null
  | num (n : Int)
  | str (s : List Nat)
  | bool (b : Bool)
  | list (xs : DynList)
  | obj (kvs : DynObj)
deriving DecidableEq, Repr

inductive DynList where
  | nil
  | cons (hd : DynValue) (tl : DynList)
deriving DecidableEq, Repr

inductive DynObj where
  | nil
  | cons (key : List Nat) (val : DynValue) (tl : DynObj)
deriving DecidableEq, Repr
end

/-- IEEE-754 binary64 bit pattern of an integer (sign, biased exponent,
52-bit mantissa); exact for `|x| ≤ 2^53`.  Models `setFloat64`. -/
def float64Bits (x : Int) : Nat :=
  if x = 0 then 0
  else
    let sign : Nat := if x < 0 then 1 else 0
    let m : Nat := x.natAbs
    let e : Nat := Nat.log2 m
    let frac : Nat := m * 2 ^ 52 / 2 ^ e - 2 ^ 52
    sign * 2 ^ 63 + (e + 1023) * 2 ^ 52 + frac

/-- The 8 little-endian bytes of a 64-bit pattern. -/
def leBytes8 (n : Nat) : List Nat :=
  [n % 256, n / 2 ^ 8 % 256, n / 2 ^ 16 % 256, n / 2 ^ 24 % 256,
   n / 2 ^ 32 % 256, n / 2 ^ 40 % 256, n / 2 ^ 48 % 256, n / 2 ^ 56 % 256]

/-- Reassemble a 64-bit pattern from 8 little-endian bytes. -/
def leBitsOf (b : List Nat) : Nat :=
  b.getD 0 0 + b.getD 1 0 * 2 ^ 8 + b.getD 2 0 * 2 ^ 16 + b.getD 3 0 * 2 ^ 24 +
    b.getD 4 0 * 2 ^ 32 + b.getD 5 0 * 2 ^ 40 + b.getD 6 0 * 2 ^ 48 + b.getD 7 0 * 2 ^ 56

/-- Integer value of a binary64 bit pattern (inverse of `float64Bits` on
exactly representable integers). -/
def float64FromBits (bits : Nat) : Int :=
  if bits % 2 ^ 63 = 0 then 0
  else
    let sign := bits / 2 ^ 63
    let e := bits / 2 ^ 52 % 2 ^ 11
    let frac := bits % 2 ^ 52
    let mag : Nat :=
      if 52 ≤ e - 1023 then (2 ^ 52 + frac) <<< (e - 1023 - 52)
      else (2 ^ 52 + frac) / 2 ^ (52 - (e - 1023))
    if sign = 1 then -(mag : Int) else (mag : Int)

namespace FetchModels

/-- `encodeStringField` from `fetch-models.ts`: unlike the `part_001`
variant, it returns no bytes when the string is empty
(`if (!value) return new Uint8Array(0)`). -/
def encodeStringField (fieldNumber : Nat) (value : List Nat) : List Nat :=
  if value.isEmpty then []
  else (((fieldNumber <<< 3) ||| 2) % 256) :: (encodeVarint value.length ++ value)

/-- `encodeBoolField`: always two bytes, tag then `value ? 1 : 0`. -/
def encodeBoolField (fieldNumber : Nat) (value : Bool) : List Nat :=
  [((fieldNumber <<< 3) ||| 0) % 256, if value then 1 else 0]

/-- `encodeDoubleField`: tag with wire type 1 then the 8 little-endian
bytes of the IEEE-754 double. -/
def encodeDoubleField (fieldNumber : Nat) (value : Int) : List Nat :=
  (((fieldNumber <<< 3) ||| 1) % 256) :: leBytes8 (float64Bits value)

mutual
/-- `encodeProtobufValue` from `fetch-models.ts` over JSON-like values:
null uses `encodeUint32Field(1, 0)` (which, skipping zero, emits no
bytes at all), numbers a field-2 double, strings a field-3
length-delimited value, booleans a field-4 varint, lists a field-6
message of wrapped field-1 items, objects a field-5 message of field-1
key/value entry messages. -/
def encodeProtobufValue : DynValue → List Nat
  | .null => encodeUint32Field 1 0
  | .num n => encodeDoubleField 2 n
  | .str s => encodeStringField 3 s
  | .bool b => encodeBoolField 4 b
  | .list xs => encodeMessageField 6 (encodeListItems xs)
  | .obj kvs => encodeMessageField 5 (encodeStructItems kvs)

def encodeListItems : DynList → List Nat
  | .nil => []
  | .cons x xs => encodeMessageField 1 (encodeProtobufValue x) ++ encodeListItems xs

def encodeStructItems : DynObj → List Nat
  | .nil => []
  | .cons k v rest =>
    encodeMessageField 1 (encodeStringField 1 k ++ encodeMessageField 2 (encodeProtobufValue v)) ++
      encodeStructItems rest
end

end FetchModels

/-! ## Dynamic-value decoding

Modelled from the spec: the repository has no `decodeDynamicValue`
(§4.1's round-trip names one, and only the encoder `encodeProtobufValue`
is in the source), so the decoder below is built from the spec's words:
a generic schema-free field decode (`parseProtoFields`) followed by the
§4.1 variant mapping — null marker/absence → null, field 2 fixed64 →
number, field 3 → string, field 4 varint → bool, field 6 wrapped
sub-messages → list, field 5 key/value entry sub-messages → object
(insertion order preserved; with duplicate keys the later entry is the
map's winning binding, per "last key wins"). -/

/-- Decode the field-1 items of a list value, recursing with `f`. -/
def mapFieldsToList (f : List Nat → DynValue) : List ParsedField → DynList
  | [] => .nil
  | ⟨1, 2, .bytes item, _, _⟩ :: rest => .cons (f item) (mapFieldsToList f rest)
  | _ :: rest => mapFieldsToList f rest

/-- The key of a decoded struct entry (field 1; empty when absent,
matching the skip-if-empty key encoding). -/
def entryKey : List ParsedField → List Nat
  | [] => []
  | ⟨1, 2, .bytes k, _, _⟩ :: _ => k
  | _ :: rest => entryKey rest

/-- The value bytes of a decoded struct entry (field 2). -/
def entryValBytes : List ParsedField → List Nat
  | [] => []
  | ⟨2, 2, .bytes v, _, _⟩ :: _ => v
  | _ :: rest => entryValBytes rest

/-- Decode the field-1 entries of a struct value, recursing with `f`. -/
def mapFieldsToObj (f : List Nat → DynValue) : List ParsedField → DynObj
  | [] => .nil
  | ⟨1, 2, .bytes entry, _, _⟩ :: rest =>
    let flds := parseProtoFields entry
    .cons (entryKey flds) (f (entryValBytes flds)) (mapFieldsToObj f rest)
  | _ :: rest => mapFieldsToObj f rest

/-- Fuel-indexed dynamic-value decoder (one fuel unit per nesting
level). -/
def decodeDyn : Nat → List Nat → DynValue
  | 0, _ => .null
  | fuel + 1, bytes =>
    match parseProtoFields bytes with
    | [⟨1, 0, .varint _, _, _⟩] => .null
    | [⟨2, 1, .bytes b, _, _⟩] => .num (float64FromBits (leBitsOf b))
    | [⟨3, 2, .bytes s, _, _⟩] => .str s
    | [⟨4, 0, .varint v, _, _⟩] => .bool (v == 1)
    | [⟨6, 2, .bytes lb, _, _⟩] =>
      .list (mapFieldsToList (fun item => decodeDyn fuel item) (parseProtoFields lb))
    | [⟨5, 2, .bytes sb, _, _⟩] =>
      .obj (mapFieldsToObj (fun vb => decodeDyn fuel vb) (parseProtoFields sb))
    | _ => .null

/-- `decodeDynamicValue` (modelled from the spec, see above): nesting
depth is bounded by the byte length, so this fuel is always enough. -/
def decodeDynamicValue (bytes : List Nat) : DynValue :=
  decodeDyn (bytes.length + 2) bytes

/-! Well-formedness of a JSON-like value for the round-trip statement:
numbers are integers doubles represent exactly, strings are non-empty
byte sequences, and object keys are byte sequences. -/
mutual
def okV : DynValue → Bool
  | .null => true
  | .num n => decide (n.natAbs ≤ 2 ^ 53)
  | .str s => !s.isEmpty && s.all (· < 256)
  | .bool _ => true
  | .list xs => okL xs
  | .obj kvs => okO kvs

def okL : DynList → Bool
  | .nil => true
  | .cons x xs => okV x && okL xs

def okO : DynObj → Bool
  | .nil => true
  | .cons k v rest => k.all (· < 256) && okV v && okO rest
end

/-! Nesting depth of a JSON-like value: one decoder fuel unit is spent
per level, and the depth is bounded by the encoded byte length. -/
mutual
def depthV : DynValue → Nat
  | .null => 1
  | .num _ => 1
  | .str _ => 1
  | .bool _ => 1
  | .list xs => 1 + depthL xs
  | .obj kvs => 1 + depthO kvs

def depthL : DynList → Nat
  | .nil => 0
  | .cons x xs => 1 + depthV x + depthL xs

def depthO : DynObj → Nat
  | .nil => 0
  | .cons _ v rest => 1 + depthV v + depthO rest
end

/-! ## Tool-call mapping (Message Mapper, response direction)

Modelled from the spec: the name-translation table of §4.3/§8 and the
README's "Tool Calling" table (the implementation, `src/server.ts` and
`src/plugin/plugin.ts`, is not part of the source tree here). -/

/-- Modelled from the spec: a backend exec-request, discriminated by an
inner oneof-like variant, each carrying its argument payload; `mcp`
carries the original tool name, and kinds outside the known set carry
their raw discriminator. -/
inductive ExecRequest where
  | shell (args : String)
  | read (args : String)
  | write (args : String)
  | ls (args : String)
  | grepPattern (args : String)
  | grepGlob (args : String)
  | mcp (toolName : String) (args : String)
  | other (rawKind : String) (args : String)
deriving DecidableEq, Repr

/-- A canonical tool invocation surfaced to the caller. -/
structure ToolCall where
  name : String
  args : String
deriving DecidableEq, Repr

/-- Modelled from the spec: the total, deterministic name translation
`shell→bash, read→read, write→write, ls→list, grep(pattern)→grep,
grep(glob)→glob, mcp→passthrough`, with unknown kinds mapped to the
sentinel name "unknown" instead of throwing or dropping. -/
def toToolCall : ExecRequest → ToolCall
  | .shell a => ⟨"bash", a⟩
  | .read a => ⟨"read", a⟩
  | .write a => ⟨"write", a⟩
  | .ls a => ⟨"list", a⟩
  | .grepPattern a => ⟨"grep", a⟩
  | .grepGlob a => ⟨"glob", a⟩
  | .mcp n a => ⟨n, a⟩
  | .other _ a => ⟨"unknown", a⟩

/-! ## Event pipeline when tools are supplied (Session State Machine)

Modelled from the spec: when a request supplies tool definitions the
engine translates every detected exec-request in the backend stream
into one ToolInvocation, suppresses any further text, and terminates
with Done (the implementation, `src/server.ts` / `src/plugin/plugin.ts`,
is not part of the source tree here). -/

/-- A decoded backend stream item relevant to event emission. -/
inductive BackendItem where
  | textDelta (s : String)
  | execReq (e : ExecRequest)
deriving DecidableEq, Repr

/-- The neutral events surfaced to the caller. -/
inductive BackendEvent where
  | TextDelta (s : String)
  | ToolInvocation (c : ToolCall)
  | Done
deriving DecidableEq, Repr

/-- Modelled from the spec: the emission phase after the first
exec-request — every further exec-request becomes a ToolInvocation and
text deltas are no longer emitted. -/
def emitToolsPhase : List BackendItem → List BackendEvent
  | [] => [.Done]
  | .execReq e :: rest => .ToolInvocation (toToolCall e) :: emitToolsPhase rest
  | .textDelta _ :: rest => emitToolsPhase rest

/-- Modelled from the spec: event emission for a turn whose request
supplied tool definitions — text streams until the first exec-request,
every exec-request becomes exactly one ToolInvocation, and the stream
terminates with Done. -/
def emitWithTools : List BackendItem → List BackendEvent
  | [] => [.Done]
  | .textDelta s :: rest => .TextDelta s :: emitWithTools rest
  | .execReq e :: rest => .ToolInvocation (toToolCall e) :: emitToolsPhase rest

/-- Number of exec-requests detected in the backend stream. -/
def countExecs : List BackendItem → Nat
  | [] => 0
  | .execReq _ :: rest => countExecs rest + 1
  | .textDelta _ :: rest => countExecs rest

/-- Number of ToolInvocation events emitted. -/
def countInvocations : List BackendEvent → Nat
  | [] => 0
  | .ToolInvocation _ :: rest => countInvocations rest + 1
  | _ :: rest => countInvocations rest

/-- `true` when no TextDelta event occurs in the list. -/
def noTextEvents (es : List BackendEvent) : Bool :=
  es.all fun e => match e with | .TextDelta _ => false | _ => true

/-- `true` when no TextDelta event follows any ToolInvocation. -/
def noTextAfterTool : List BackendEvent → Bool
  | [] => true
  | .ToolInvocation _ :: rest => noTextEvents rest
  | _ :: rest => noTextAfterTool rest

/-- The non-streaming concatenation rule (modelled from the spec):
concatenate TextDelta payloads in arrival order, stopping at the first
ToolInvocation. -/
def concatUntilTool : List BackendEvent → String
  | [] => ""
  | .TextDelta s :: rest => s ++ concatUntilTool rest
  | .ToolInvocation _ :: _ => ""
  | .Done :: rest => concatUntilTool rest

/-- Concatenated backend text preceding the first exec-request. -/
def textBeforeExec : List BackendItem → String
  | [] => ""
  | .textDelta s :: rest => s ++ textBeforeExec rest
  | .execReq _ :: _ => ""

/-! ## Session continuation policy (Session State Machine)

Modelled from the spec (§4.4): each request is independently classified
Fresh or Continuing; the default policy is Fresh-replay (new
conversationId, full message history replayed, with the previous tool
call and tool result already part of that history as ordinary
messages), and Continuing exists only as an explicit, non-default mode
(the implementation, `src/server.ts` / `src/plugin/plugin.ts`, is not
part of the source tree here). -/

/-- Modelled from the spec: engine configuration — Continuing is only
reachable through this explicit switch. -/
structure SessionConfig where
  continuationEnabled : Bool
deriving DecidableEq, Repr

/-- The default configuration: Fresh-replay policy. -/
def defaultSessionConfig : SessionConfig := ⟨false⟩

/-- The two session modes of §4.4. -/
inductive SessionMode where
  | Fresh
  | Continuing
deriving DecidableEq, Repr

/-- Modelled from the spec: classification of one inbound request, from
whether it carries tool-result messages that match a known prior
conversation in the session store; with continuation disabled every
request is Fresh. -/
def classifyTurn (cfg : SessionConfig) (hasToolResults knownConversation : Bool) : SessionMode :=
  if cfg.continuationEnabled && hasToolResults && knownConversation then .Continuing else .Fresh

/-- The backend request produced for a follow-up turn: either a fresh
conversation replaying the full history, or a continuation appending
only the new messages under the prior conversationId. -/
structure FollowUpRequest where
  conversationId : Option String
  messages : List String
deriving DecidableEq, Repr

/-- Modelled from the spec: build the follow-up request after tool
execution — Fresh replays the full history (which includes the previous
tool call and tool result as ordinary messages) under a new
conversationId (`none` = freshly generated); Continuing appends the new
messages under the prior id. -/
def buildFollowUp (cfg : SessionConfig) (history newMessages : List String)
    (priorConversationId : String) (hasToolResults knownConversation : Bool) :
    FollowUpRequest :=
  match classifyTurn cfg hasToolResults knownConversation with
  | .Fresh => ⟨none, history⟩
  | .Continuing => ⟨some priorConversationId, newMessages⟩

/-! ## Varint lemmas -/

lemma encodeVarintGo_congr :
    ∀ f1 f2 v, v < 128 ^ (f1 + 1) → v < 128 ^ (f2 + 1) →
      encodeVarintGo f1 v = encodeVarintGo f2 v := by
  intro f1
  induction f1 with
  | zero =>
    intro f2 v h1 h2
    match f2 with
    | 0 => rfl
    | f2 + 1 =>
      have hv : ¬ 127 < v := by
        have h1' : v < 128 := by simpa using h1
        omega
      simp [encodeVarintGo, hv]
  | succ f1 ih =>
    intro f2 v h1 h2
    match f2 with
    | 0 =>
      have hv : ¬ 127 < v := by
        have h2' : v < 128 := by simpa using h2
        omega
      simp [encodeVarintGo, hv]
    | f2 + 1 =>
      simp only [encodeVarintGo]
      by_cases hv : 127 < v
      · simp only [hv, if_true]
        have hd1 : v / 128 < 128 ^ (f1 + 1) :=
          Nat.div_lt_of_lt_mul (by rw [← pow_succ']; exact h1)
        have hd2 : v / 128 < 128 ^ (f2 + 1) :=
          Nat.div_lt_of_lt_mul (by rw [← pow_succ']; exact h2)
        rw [ih f2 (v / 128) hd1 hd2]
      · simp [hv]

lemma lt_pow128_succ (n : Nat) : n < 128 ^ (n + 1) := by
  calc n < 128 ^ n := Nat.lt_pow_self (by norm_num) n
    _ ≤ 128 ^ (n + 1) := Nat.pow_le_pow_right (by norm_num) (Nat.le_succ n)

/-- The loop equation of `encodeVarint`. -/
lemma encodeVarint_eq (v : Nat) :
    encodeVarint v = if 127 < v then (v % 128 + 128) :: encodeVarint (v / 128) else [v] := by
  unfold encodeVarint
  by_cases hv : 127 < v
  · obtain ⟨f, rfl⟩ : ∃ f, v = f + 1 := ⟨v - 1, by omega⟩
    simp only [encodeVarintGo, hv, if_true]
    rw [encodeVarintGo_congr f ((f + 1) / 128) ((f + 1) / 128)
      (by
        have : (f + 1) / 128 ≤ f := by omega
        exact lt_of_le_of_lt this (lt_pow128_succ f))
      (lt_pow128_succ _)]
  · rw [encodeVarintGo_congr v 0 v (lt_pow128_succ v) (by simpa using by omega)]
    simp [encodeVarintGo, hv]

/-- Bytes below 128 have the continuation bit clear. -/
lemma and128_eq_zero {v : Nat} (h : v < 128) : v &&& 128 = 0 := by
  have ht : v.testBit 7 = false := Nat.testBit_lt_two_pow (by norm_num at h ⊢; omega)
  have := Nat.and_two_pow v 7
  rw [ht] at this
  simpa using this

/-- Bytes in `[128, 256)` have the continuation bit set. -/
lemma and128_ne_zero {v : Nat} (h1 : 128 ≤ v) (h2 : v < 256) : v &&& 128 ≠ 0 := by
  have ht : v.testBit 7 = true := by
    rw [Nat.testBit_to_div_mod]
    norm_num
    omega
  have := Nat.and_two_pow v 7
  rw [ht] at this
  norm_num at this
  omega

/-- Masking with `0x7f` is reduction mod 128. -/
lemma and127_eq_mod {v : Nat} : v &&& 127 = v % 128 := by
  have := Nat.and_pow_two_sub_one_eq_mod v 7
  norm_num at this
  exact this

/-- Decoding an encoded varint from the front of a longer buffer yields
the value (at the accumulated shift) and consumes exactly the encoded
bytes. -/
lemma decodeVarintGo_encodeVarint (v : Nat) :
    ∀ (rest : List Nat) (shift : Nat),
      decodeVarintGo (encodeVarint v ++ rest) shift =
        (v <<< shift, (encodeVarint v).length) := by
  induction v using Nat.strong_induction_on with
  | _ v ih =>
    intro rest shift
    rw [encodeVarint_eq v]
    by_cases hv : 127 < v
    · simp only [hv, if_true, List.cons_append, List.length_cons]
      have hbyte : (v % 128 + 128) &&& 128 ≠ 0 :=
        and128_ne_zero (by omega) (by omega)
      simp only [decodeVarintGo, hbyte, if_false, if_neg hbyte]
      rw [ih (v / 128) (by omega) rest (shift + 7)]
      have hmask : (v % 128 + 128) &&& 127 = v % 128 := by
        rw [and127_eq_mod]; omega
      rw [hmask]
      refine Prod.ext ?_ rfl
      show (v % 128) <<< shift ||| (v / 128) <<< (shift + 7) = v <<< shift
      rw [Nat.shiftLeft_eq, Nat.shiftLeft_eq, Nat.shiftLeft_eq]
      have h27 : (2 : Nat) ^ (shift + 7) = 2 ^ shift * 128 := by
        rw [pow_add]; norm_num
      have hlt : v % 128 * 2 ^ shift < 2 ^ (shift + 7) := by
        rw [h27, Nat.mul_comm (2 ^ shift) 128]
        exact (Nat.mul_lt_mul_right (Nat.two_pow_pos shift)).mpr (Nat.mod_lt v (by norm_num))
      have key := Nat.mul_add_lt_is_or hlt (v / 128)
      rw [Nat.or_comm, Nat.mul_comm (v / 128) (2 ^ (shift + 7)), ← key, h27]
      have : 2 ^ shift * 128 * (v / 128) + v % 128 * 2 ^ shift =
          (128 * (v / 128) + v % 128) * 2 ^ shift := by ring
      rw [this, Nat.mul_comm 128 (v / 128)]
      congr 1
      omega
    · simp only [hv, if_false, List.cons_append]
      have h0 : v &&& 128 = 0 := and128_eq_zero (by omega)
      simp only [decodeVarintGo, h0, if_true, if_pos h0]
      rw [and127_eq_mod, Nat.mod_eq_of_lt (by omega)]
      rfl

/-- On a non-empty buffer at least one byte is consumed. -/
lemma decodeVarintGo_pos (b : Nat) (rest : List Nat) (shift : Nat) :
    1 ≤ (decodeVarintGo (b :: rest) shift).2 := by
  simp only [decodeVarintGo]
  split <;> simp

/-- Never more bytes consumed than available. -/
lemma decodeVarintGo_le (l : List Nat) : ∀ shift, (decodeVarintGo l shift).2 ≤ l.length := by
  induction l with
  | nil => intro shift; simp [decodeVarintGo]
  | cons b rest ih =>
    intro shift
    simp only [decodeVarintGo, List.length_cons]
    split
    · simp
    · simpa using ih (shift + 7)

/-- When every remaining byte keeps the continuation bit set, the
decoder consumes the whole remainder and returns the value that a
terminating zero byte would have produced. -/
lemma decodeVarintGo_truncated :
    ∀ (l : List Nat) (shift : Nat), (∀ b ∈ l, b &&& 0x80 ≠ 0) →
      decodeVarintGo l shift = ((decodeVarintGo (l ++ [0]) shift).1, l.length) := by
  intro l
  induction l with
  | nil =>
    intro shift _
    simp [decodeVarintGo]
  | cons b rest ih =>
    intro shift h
    have hb : b &&& 0x80 ≠ 0 := h b (List.mem_cons_self b rest)
    simp only [List.cons_append, decodeVarintGo, hb, if_neg hb, List.length_cons]
    rw [ih (shift + 7) (fun x hx => h x (List.mem_cons_of_mem b hx))]
    simp

/-- C4 kernel: round-trip of the varint codec. -/
lemma decodeVarint_encodeVarint (v : Nat) :
    decodeVarint (encodeVarint v) 0 = (v, (encodeVarint v).length) := by
  unfold decodeVarint
  rw [List.drop_zero, ← List.append_nil (encodeVarint v), decodeVarintGo_encodeVarint]
  simp

/-! ## Claim C4 -/

/-- C4: for every representable unsigned integer `v`, decoding the bytes
produced by `encodeVarint v` from offset 0 returns `(v, consumed)` with
`consumed` equal to the length of the encoded bytes. -/
theorem varint_roundtrip (v : Nat) :
    decodeVarint (encodeVarint v) 0 = (v, (encodeVarint v).length) :=
  decodeVarint_encodeVarint v

/-! ## Claim C10 -/

/-- C10: `decodeVarint` is total, and when the buffer ends while the
last available byte still has the continuation bit `0x80` set it
silently accepts the truncated varint: it returns the value accumulated
from the bytes read so far (the value a terminating zero byte would
have produced) with `bytesRead` equal to the number of available
bytes. -/
theorem decodeVarint_truncation (data : List Nat) (offset : Nat)
    (hoff : offset ≤ data.length)
    (hcont : ∀ b ∈ data.drop offset, b &&& 0x80 ≠ 0) :
    decodeVarint data offset =
      ((decodeVarint (data ++ [0]) offset).1, data.length - offset) := by
  unfold decodeVarint
  rw [List.drop_append_of_le_length hoff,
    decodeVarintGo_truncated _ 0 hcont, List.length_drop]

/-- Witness for C10 at the concrete truncated buffer `[0x80, 0xff]`. -/
theorem decodeVarint_truncation_witness :
    decodeVarint [128, 255] 0 =
      ((decodeVarint ([128, 255] ++ [0]) 0).1, [128, 255].length - 0) :=
  decodeVarint_truncation [128, 255] 0 (by decide) (by decide)

/-! ## Claim C3 -/

/-- C3: zero-valued optional scalar fields produce no bytes on encode,
EXCEPT the first-turn conversation-state field, which the working
request path encodes as an explicitly present empty length-delimited
field (`[0x0a, 0x00]`); the skip-if-empty encoding of that field is a
distinct byte stream not produced by the working path's encoder. -/
theorem zero_scalar_and_conv_state (n : Nat) (ca md cid : List Nat) :
    encodeInt32Field n 0 = [] ∧ encodeUint32Field n 0 = [] ∧
    encodeMessageField 1 [] = [10, 0] ∧
    encodeMessageFieldSkipEmpty 1 [] = [] ∧
    agentRunRequestAlways ca md cid = 10 :: 0 :: agentRunRequestSkipEmpty ca md cid ∧
    agentRunRequestAlways ca md cid ≠ agentRunRequestSkipEmpty ca md cid := by
  refine ⟨rfl, rfl, rfl, rfl, rfl, ?_⟩
  intro h
  have h5 : agentRunRequestAlways ca md cid =
      10 :: 0 :: agentRunRequestSkipEmpty ca md cid := rfl
  rw [h5] at h
  have := congrArg List.length h
  simp at this
  omega

/-! ## Claim C9 -/

/-- C9: the tool name mapping is a total deterministic function --
`shell→bash, read→read, write→write, ls→list, grep(pattern)→grep,
grep(glob)→glob`, `mcp` passes the original name and arguments through
unchanged, and every kind outside the known set maps to the sentinel
name "unknown" (with its arguments preserved) instead of throwing or
dropping the invocation. -/
theorem tool_name_mapping (a n r : String) :
    toToolCall (.shell a) = ⟨"bash", a⟩ ∧
    toToolCall (.read a) = ⟨"read", a⟩ ∧
    toToolCall (.write a) = ⟨"write", a⟩ ∧
    toToolCall (.ls a) = ⟨"list", a⟩ ∧
    toToolCall (.grepPattern a) = ⟨"grep", a⟩ ∧
    toToolCall (.grepGlob a) = ⟨"glob", a⟩ ∧
    toToolCall (.mcp n a) = ⟨n, a⟩ ∧
    toToolCall (.other r a) = ⟨"unknown", a⟩ :=
  ⟨rfl, rfl, rfl, rfl, rfl, rfl, rfl, rfl⟩

/-! ## Claim C6 lemmas -/

lemma countInvocations_emitToolsPhase (l : List BackendItem) :
    countInvocations (emitToolsPhase l) = countExecs l := by
  induction l with
  | nil => rfl
  | cons i rest ih =>
    cases i with
    | textDelta s => simpa [emitToolsPhase, countExecs] using ih
    | execReq e => simp [emitToolsPhase, countExecs, countInvocations, ih]

lemma emitToolsPhase_concat (l : List BackendItem) :
    ∃ pre, emitToolsPhase l = pre ++ [BackendEvent.Done] := by
  induction l with
  | nil => exact ⟨[], rfl⟩
  | cons i rest ih =>
    obtain ⟨pre, hp⟩ := ih
    cases i with
    | textDelta s => exact ⟨pre, by simpa [emitToolsPhase] using hp⟩
    | execReq e =>
      exact ⟨.ToolInvocation (toToolCall e) :: pre, by simp [emitToolsPhase, hp]⟩

lemma noTextEvents_emitToolsPhase (l : List BackendItem) :
    noTextEvents (emitToolsPhase l) = true := by
  induction l with
  | nil => rfl
  | cons i rest ih =>
    cases i with
    | textDelta s => simpa [emitToolsPhase] using ih
    | execReq e => simpa [emitToolsPhase, noTextEvents] using ih

lemma noTextAfterTool_of_noText (es : List BackendEvent) (h : noTextEvents es = true) :
    noTextAfterTool es = true := by
  induction es with
  | nil => rfl
  | cons e rest ih =>
    cases e with
    | TextDelta s => simp [noTextEvents] at h
    | ToolInvocation c =>
      simp only [noTextEvents, List.all_cons, Bool.and_eq_true] at h
      simpa [noTextAfterTool, noTextEvents] using h.2
    | Done =>
      simp only [noTextEvents, List.all_cons, Bool.and_eq_true] at h
      simpa [noTextAfterTool] using ih (by simpa [noTextEvents] using h.2)

lemma emitWithTools_concat (items : List BackendItem) :
    ∃ pre, emitWithTools items = pre ++ [BackendEvent.Done] := by
  induction items with
  | nil => exact ⟨[], rfl⟩
  | cons i rest ih =>
    cases i with
    | textDelta s =>
      obtain ⟨pre, hp⟩ := ih
      exact ⟨.TextDelta s :: pre, by simp [emitWithTools, hp]⟩
    | execReq e =>
      obtain ⟨pre, hp⟩ := emitToolsPhase_concat rest
      exact ⟨.ToolInvocation (toToolCall e) :: pre, by simp [emitWithTools, hp]⟩

/-! ## Claim C6 -/

/-- C6: when tools are supplied, the pipeline emits exactly one
ToolInvocation per detected exec-request, terminates with Done, never
emits a TextDelta after any ToolInvocation, and the non-streaming
concatenation of TextDelta payloads stops at the first observed
ToolInvocation. -/
theorem tools_event_pipeline (items : List BackendItem) :
    countInvocations (emitWithTools items) = countExecs items ∧
    (emitWithTools items).getLast? = some BackendEvent.Done ∧
    noTextAfterTool (emitWithTools items) = true ∧
    concatUntilTool (emitWithTools items) = textBeforeExec items := by
  refine ⟨?_, ?_, ?_, ?_⟩
  · induction items with
    | nil => rfl
    | cons i rest ih =>
      cases i with
      | textDelta s => simpa [emitWithTools, countExecs, countInvocations] using ih
      | execReq e =>
        simp [emitWithTools, countExecs, countInvocations, countInvocations_emitToolsPhase]
  · obtain ⟨pre, hp⟩ := emitWithTools_concat items
    rw [hp]
    exact List.getLast?_concat pre
  · induction items with
    | nil => rfl
    | cons i rest ih =>
      cases i with
      | textDelta s => simpa [emitWithTools, noTextAfterTool] using ih
      | execReq e =>
        simpa [emitWithTools, noTextAfterTool] using noTextEvents_emitToolsPhase rest
  · induction items with
    | nil => rfl
    | cons i rest ih =>
      cases i with
      | textDelta s => simp [emitWithTools, concatUntilTool, textBeforeExec, ih]
      | execReq e => simp [emitWithTools, concatUntilTool, textBeforeExec]

/-! ## Claim C7 -/

/-- C7: the session state machine defaults to the Fresh-replay policy:
under the default configuration every tool-call follow-up turn is
classified Fresh and sent with a new conversationId (`none` = freshly
generated) replaying the full message history, and the Continuing mode
is reachable only when it has been explicitly enabled. -/
theorem session_default_fresh_replay (hasToolResults knownConversation : Bool)
    (history newMessages : List String) (cid : String) :
    classifyTurn defaultSessionConfig hasToolResults knownConversation = .Fresh ∧
    buildFollowUp defaultSessionConfig history newMessages cid
      hasToolResults knownConversation = ⟨none, history⟩ ∧
    (∀ cfg : SessionConfig,
      classifyTurn cfg hasToolResults knownConversation = .Continuing →
        cfg.continuationEnabled = true) := by
  refine ⟨rfl, rfl, ?_⟩
  intro cfg h
  by_contra hc
  have hfalse : cfg.continuationEnabled = false := by
    cases hcfg : cfg.continuationEnabled
    · rfl
    · exact absurd hcfg hc
  rw [classifyTurn, hfalse] at h
  simp at h

/-- Witness for C7: with continuation explicitly enabled, a tool-result
turn on a known conversation classifies Continuing, and the theorem
recovers the explicit flag. -/
theorem session_default_fresh_replay_witness :
    SessionConfig.continuationEnabled ⟨true⟩ = true :=
  (session_default_fresh_replay true true [] [] "c").2.2 ⟨true⟩ (by decide)

/-! ## Claim C1 -/

/-- C1 counterexample: `[0x0b, 0x08, 0x01]` starts with a field tag of
wire type 3 (unrecognized) followed by the perfectly decodable field
`[0x08, 0x01]` (field 1, varint 1).  `parseProtoFields` returns `[]`
for the whole buffer — the trailing decodable field is silently dropped
and no error is surfaced (the result is indistinguishable from an empty
message) — contradicting "decoding continues to return the remaining
fields" and "a single terminal Error is surfaced". -/
theorem parse_drops_after_unknown_wiretype :
    parseProtoFields [11, 8, 1] = [] ∧
    parseProtoFields [8, 1] = [⟨1, 0, ProtoValue.varint 1, 0, 2⟩] := by
  decide

/-- C1 (amended): whenever the generic decoder reaches a field tag with
an unrecognized wire type (not 0, 1, 2 or 5), it stops at that point
and returns only the fields decoded before it: all trailing fields are
silently dropped and no error is surfaced. -/
theorem parse_unknown_wiretype_stops (fuel off : Nat) (rem : List Nat)
    (hne : rem ≠ [])
    (h0 : (decodeVarintGo rem 0).1 % 8 ≠ 0)
    (h1 : (decodeVarintGo rem 0).1 % 8 ≠ 1)
    (h2 : (decodeVarintGo rem 0).1 % 8 ≠ 2)
    (h5 : (decodeVarintGo rem 0).1 % 8 ≠ 5) :
    parseGo (fuel + 1) rem off = [] := by
  simp [parseGo, List.isEmpty_iff, hne, h0, h1, h2, h5]

/-- Witness for the amended C1 at the concrete buffer `[0x0b, 0x08, 0x01]`
(wire type 3). -/
theorem parse_unknown_wiretype_stops_witness :
    parseGo (2 + 1) [11, 8, 1] 0 = [] :=
  parse_unknown_wiretype_stops 2 0 [11, 8, 1]
    (by decide) (by decide) (by decide) (by decide) (by decide)

/-! ## Framer lemmas -/

/-- Two ample fuels extract the same frames. -/
lemma extractGo_congr :
    ∀ f1 f2 buf, buf.length ≤ 5 * f1 → buf.length ≤ 5 * f2 →
      extractGo f1 buf = extractGo f2 buf := by
  intro f1
  induction f1 with
  | zero =>
    intro f2 buf h1 _
    have hb : buf = [] := List.eq_nil_of_length_eq_zero (by omega)
    subst hb
    cases f2 with
    | zero => rfl
    | succ f2 => rfl
  | succ f1 ih =>
    intro f2 buf h1 h2
    cases f2 with
    | zero =>
      have hb : buf = [] := List.eq_nil_of_length_eq_zero (by omega)
      subst hb
      rfl
    | succ f2 =>
      rcases buf with _ | ⟨b0, _ | ⟨b1, _ | ⟨b2, _ | ⟨b3, _ | ⟨b4, rest⟩⟩⟩⟩⟩
      · rfl
      · rfl
      · rfl
      · rfl
      · rfl
      · simp only [extractGo]
        by_cases hc : frameLength b1 b2 b3 b4 ≤ rest.length
        · simp only [hc, if_true]
          have hlen : (b0 :: b1 :: b2 :: b3 :: b4 :: rest).length = rest.length + 5 := by
            simp
          rw [hlen] at h1 h2
          rw [ih f2 (rest.drop (frameLength b1 b2 b3 b4))
            (by simp [List.length_drop]; omega) (by simp [List.length_drop]; omega)]
        · simp [hc]

/-- A buffer shorter than a header extracts nothing. -/
lemma extractAll_short (buf : List Nat) (h : buf.length < 5) :
    extractAll buf = ([], buf) := by
  unfold extractAll
  rcases buf with _ | ⟨b0, _ | ⟨b1, _ | ⟨b2, _ | ⟨b3, _ | ⟨b4, rest⟩⟩⟩⟩⟩
  · rfl
  · rfl
  · rfl
  · rfl
  · rfl
  · simp only [List.length_cons] at h
    omega

/-- The loop equation of `extractAll` on a buffer with a full header. -/
lemma extractAll_cons5 (b0 b1 b2 b3 b4 : Nat) (rest : List Nat) :
    extractAll (b0 :: b1 :: b2 :: b3 :: b4 :: rest) =
      if frameLength b1 b2 b3 b4 ≤ rest.length then
        ((⟨b0, rest.take (frameLength b1 b2 b3 b4)⟩ : WireFrame) ::
            (extractAll (rest.drop (frameLength b1 b2 b3 b4))).1,
          (extractAll (rest.drop (frameLength b1 b2 b3 b4))).2)
      else ([], b0 :: b1 :: b2 :: b3 :: b4 :: rest) := by
  unfold extractAll
  have hlen : (b0 :: b1 :: b2 :: b3 :: b4 :: rest).length = rest.length + 4 + 1 := by
    simp
  rw [hlen]
  have step : extractGo (rest.length + 4 + 1) (b0 :: b1 :: b2 :: b3 :: b4 :: rest) =
      if frameLength b1 b2 b3 b4 ≤ rest.length then
        ((⟨b0, rest.take (frameLength b1 b2 b3 b4)⟩ : WireFrame) ::
            (extractGo (rest.length + 4) (rest.drop (frameLength b1 b2 b3 b4))).1,
          (extractGo (rest.length + 4) (rest.drop (frameLength b1 b2 b3 b4))).2)
      else ([], b0 :: b1 :: b2 :: b3 :: b4 :: rest) := rfl
  rw [step]
  by_cases hc : frameLength b1 b2 b3 b4 ≤ rest.length
  · simp only [hc, if_true]
    rw [extractGo_congr (rest.length + 4) (rest.drop (frameLength b1 b2 b3 b4)).length
      (rest.drop (frameLength b1 b2 b3 b4))
      (by simp [List.length_drop]; omega) (by omega)]
  · simp [hc]

/-- Extraction is incremental: extracting from `a ++ b` first drains
`a`, then continues from `a`'s retained remainder extended by `b`. -/
lemma extractAll_append (a b : List Nat) :
    extractAll (a ++ b) =
      ((extractAll a).1 ++ (extractAll ((extractAll a).2 ++ b)).1,
        (extractAll ((extractAll a).2 ++ b)).2) := by
  suffices H : ∀ n (a b : List Nat), a.length ≤ n →
      extractAll (a ++ b) =
        ((extractAll a).1 ++ (extractAll ((extractAll a).2 ++ b)).1,
          (extractAll ((extractAll a).2 ++ b)).2) from H a.length a b le_rfl
  intro n
  induction n with
  | zero =>
    intro a b ha
    have hb : a = [] := List.eq_nil_of_length_eq_zero (by omega)
    subst hb
    simp [extractAll_short]
  | succ n ih =>
    intro a b ha
    by_cases hshort : a.length < 5
    · rw [extractAll_short a hshort]
      simp
    · rcases a with _ | ⟨b0, _ | ⟨b1, _ | ⟨b2, _ | ⟨b3, _ | ⟨b4, rest⟩⟩⟩⟩⟩
      · simp at hshort
      · simp at hshort
      · simp at hshort
      · simp at hshort
      · simp at hshort
      · simp only [List.cons_append]
        rw [extractAll_cons5 b0 b1 b2 b3 b4 rest,
          extractAll_cons5 b0 b1 b2 b3 b4 (rest ++ b)]
        by_cases hc : frameLength b1 b2 b3 b4 ≤ rest.length
        · have hc' : frameLength b1 b2 b3 b4 ≤ (rest ++ b).length := by
            simp [List.length_append]; omega
          simp only [hc, hc', if_true]
          rw [List.take_append_of_le_length hc, List.drop_append_of_le_length hc]
          have hlen5 : (b0 :: b1 :: b2 :: b3 :: b4 :: rest).length = rest.length + 5 := by
            simp
          rw [ih (rest.drop (frameLength b1 b2 b3 b4)) b
            (by simp [List.length_drop]; omega)]
          simp
        · simp only [hc, if_false]
          simp only [List.nil_append, List.cons_append]
          rw [extractAll_cons5 b0 b1 b2 b3 b4 (rest ++ b)]

/-- The retained remainder never itself contains a complete frame. -/
lemma extractAll_residue (buf : List Nat) :
    extractAll ((extractAll buf).2) = ([], (extractAll buf).2) := by
  suffices H : ∀ n buf, List.length buf ≤ n →
      extractAll ((extractAll buf).2) = ([], (extractAll buf).2) from H buf.length buf le_rfl
  intro n
  induction n with
  | zero =>
    intro buf hb
    have : buf = [] := List.eq_nil_of_length_eq_zero (by omega)
    subst this
    rfl
  | succ n ih =>
    intro buf hb
    by_cases hshort : buf.length < 5
    · rw [extractAll_short buf hshort]
      exact extractAll_short buf hshort
    · rcases buf with _ | ⟨b0, _ | ⟨b1, _ | ⟨b2, _ | ⟨b3, _ | ⟨b4, rest⟩⟩⟩⟩⟩
      · simp at hshort
      · simp at hshort
      · simp at hshort
      · simp at hshort
      · simp at hshort
      · rw [extractAll_cons5 b0 b1 b2 b3 b4 rest]
        by_cases hc : frameLength b1 b2 b3 b4 ≤ rest.length
        · simp only [hc, if_true]
          have hlen5 : (b0 :: b1 :: b2 :: b3 :: b4 :: rest).length = rest.length + 5 := by
            simp
          simpa using ih (rest.drop (frameLength b1 b2 b3 b4))
            (by simp [List.length_drop]; omega)
        · simp only [hc, if_false]
          rw [extractAll_cons5 b0 b1 b2 b3 b4 rest]
          simp [hc]

/-- Incremental feeding from any quiescent state equals one whole-buffer
extraction. -/
lemma foldl_framerFeed :
    ∀ (cs : List (List Nat)) (st : List WireFrame × List Nat),
      extractAll st.2 = ([], st.2) →
        cs.foldl framerFeed st =
          (st.1 ++ (extractAll (st.2 ++ cs.flatten)).1,
            (extractAll (st.2 ++ cs.flatten)).2) := by
  intro cs
  induction cs with
  | nil =>
    intro st hst
    simp only [List.foldl_nil, List.flatten_nil, List.append_nil]
    rw [hst]
    simp
  | cons c cs ih =>
    intro st hst
    rw [List.foldl_cons]
    show (cs.foldl framerFeed (st.1 ++ (extractAll (st.2 ++ c)).1, (extractAll (st.2 ++ c)).2)) = _
    rw [ih (st.1 ++ (extractAll (st.2 ++ c)).1, (extractAll (st.2 ++ c)).2)
      (extractAll_residue (st.2 ++ c))]
    rw [List.flatten_cons, ← List.append_assoc st.2 c cs.flatten,
      extractAll_append (st.2 ++ c) cs.flatten]
    simp

/-- The framer is a pure stream transducer: feeding any chunking of a
byte stream equals extracting from the whole stream at once. -/
lemma framerRun_eq (chunks : List (List Nat)) :
    framerRun chunks =
      ((extractAll chunks.flatten).1, (extractAll chunks.flatten).2) := by
  unfold framerRun
  rw [foldl_framerFeed chunks ([], []) rfl]
  simp

/-- Disjoint bitwise or is addition. -/
lemma or_eq_add_of_lt {a b : Nat} (i : Nat) (ha : ∃ c, a = c * 2 ^ i) (hb : b < 2 ^ i) :
    a ||| b = a + b := by
  obtain ⟨c, rfl⟩ := ha
  rw [Nat.mul_comm]
  exact (Nat.mul_add_lt_is_or hb c).symm

/-- The big-endian 4-byte length round-trips for every length below
`2^32`. -/
lemma frameLength_be4 (L : Nat) (h : L < 2 ^ 32) :
    frameLength ((L >>> 24) &&& 0xff) ((L >>> 16) &&& 0xff) ((L >>> 8) &&& 0xff)
      (L &&& 0xff) = L := by
  have hmod : ∀ x : Nat, x &&& 0xff = x % 2 ^ 8 := fun x => by
    have := Nat.and_pow_two_sub_one_eq_mod x 8
    norm_num at this ⊢
    exact this
  have hshift : ∀ k, L >>> k = L / 2 ^ k := fun k => Nat.shiftRight_eq_div_pow L k
  unfold frameLength
  rw [hmod, hmod, hmod, hmod, hshift, hshift, hshift]
  set x1 := L / 2 ^ 24 % 2 ^ 8 with hx1
  set x2 := L / 2 ^ 16 % 2 ^ 8 with hx2
  set x3 := L / 2 ^ 8 % 2 ^ 8 with hx3
  set x4 := L % 2 ^ 8 with hx4
  have b1 : x1 < 2 ^ 8 := Nat.mod_lt _ (by norm_num)
  have b2 : x2 < 2 ^ 8 := Nat.mod_lt _ (by norm_num)
  have b3 : x3 < 2 ^ 8 := Nat.mod_lt _ (by norm_num)
  have b4 : x4 < 2 ^ 8 := Nat.mod_lt _ (by norm_num)
  rw [Nat.shiftLeft_eq, Nat.shiftLeft_eq, Nat.shiftLeft_eq]
  have s1 : x1 * 2 ^ 24 ||| x2 * 2 ^ 16 = x1 * 2 ^ 24 + x2 * 2 ^ 16 := by
    refine or_eq_add_of_lt 24 ⟨x1, rfl⟩ ?_
    calc x2 * 2 ^ 16 < 2 ^ 8 * 2 ^ 16 := (Nat.mul_lt_mul_right (by norm_num)).mpr b2
      _ = 2 ^ 24 := by norm_num
  have s2 : x1 * 2 ^ 24 + x2 * 2 ^ 16 ||| x3 * 2 ^ 8 =
      x1 * 2 ^ 24 + x2 * 2 ^ 16 + x3 * 2 ^ 8 := by
    refine or_eq_add_of_lt 16 ⟨x1 * 2 ^ 8 + x2, by ring⟩ ?_
    calc x3 * 2 ^ 8 < 2 ^ 8 * 2 ^ 8 := (Nat.mul_lt_mul_right (by norm_num)).mpr b3
      _ = 2 ^ 16 := by norm_num
  have s3 : x1 * 2 ^ 24 + x2 * 2 ^ 16 + x3 * 2 ^ 8 ||| x4 =
      x1 * 2 ^ 24 + x2 * 2 ^ 16 + x3 * 2 ^ 8 + x4 := by
    exact or_eq_add_of_lt 8 ⟨x1 * 2 ^ 16 + x2 * 2 ^ 8 + x3, by ring⟩ b4
  rw [s1, s2, s3, hx1, hx2, hx3, hx4]
  norm_num
  omega

/-- Extracting from an encoded frame followed by more bytes yields that
frame and continues on the remainder. -/
lemma extractAll_encodeFrame (flags : Nat) (payload rest : List Nat)
    (h : payload.length < 2 ^ 32) :
    extractAll (encodeFrame flags payload ++ rest) =
      ((⟨flags % 256, payload⟩ : WireFrame) :: (extractAll rest).1,
        (extractAll rest).2) := by
  simp only [encodeFrame, be4, List.cons_append, List.nil_append, List.append_assoc]
  rw [extractAll_cons5, frameLength_be4 payload.length h]
  have hc : payload.length ≤ (payload ++ rest).length := by simp
  simp only [hc, if_true]
  rw [List.take_left, List.drop_left]

/-- Extracting from a whole valid stream recovers every frame with an
empty remainder. -/
lemma extractAll_encodeFrames (fs : List WireFrame)
    (h : ∀ f ∈ fs, f.payload.length < 2 ^ 32) :
    extractAll (encodeFrames fs) =
      (fs.map fun f => (⟨f.flags % 256, f.payload⟩ : WireFrame), []) := by
  induction fs with
  | nil => rfl
  | cons f fs ih =>
    have hstep : encodeFrames (f :: fs) = encodeFrame f.flags f.payload ++ encodeFrames fs := by
      simp [encodeFrames]
    rw [hstep, extractAll_encodeFrame f.flags f.payload (encodeFrames fs)
      (h f (List.mem_cons_self f fs))]
    rw [ih fun g hg => h g (List.mem_cons_of_mem f hg)]
    simp

/-! ## Claim C2 -/

/-- C2: frame reassembly is chunk-boundary-independent — for every
valid byte stream encoding a sequence of frames and every partition of
it into chunks (cut points may fall inside the 5-byte header), feeding
the chunks to the framer incrementally yields exactly the frames of the
stream, with nothing left buffered, the same as feeding the whole
stream at once (`framerRun [stream]`). -/
theorem framer_chunk_independence (fs : List WireFrame) (chunks : List (List Nat))
    (hfs : ∀ f ∈ fs, f.flags < 256 ∧ f.payload.length < 2 ^ 31)
    (hstream : chunks.flatten = encodeFrames fs) :
    framerRun chunks = (fs, []) := by
  rw [framerRun_eq, hstream,
    extractAll_encodeFrames fs fun f hf => lt_trans (hfs f hf).2 (by norm_num)]
  refine Prod.ext ?_ rfl
  show fs.map (fun f => (⟨f.flags % 256, f.payload⟩ : WireFrame)) = fs
  conv_rhs => rw [← List.map_id fs]
  refine List.map_congr_left fun f hf => ?_
  cases f with
  | mk flags payload =>
    simp [Nat.mod_eq_of_lt (hfs _ hf).1]

/-- Witness for C2: a two-frame stream cut at four points, two of them
inside headers. -/
theorem framer_chunk_independence_witness :
    framerRun [[0, 0], [0, 0, 3, 1, 2], [3, 128, 0], [0, 0, 1, 5]] =
      ([⟨0, [1, 2, 3]⟩, ⟨128, [5]⟩], []) :=
  framer_chunk_independence [⟨0, [1, 2, 3]⟩, ⟨128, [5]⟩]
    [[0, 0], [0, 0, 3, 1, 2], [3, 128, 0], [0, 0, 1, 5]]
    (by decide) (by decide)

/-! ## Claim C8 -/

/-- C8: a frame stream truncated mid-payload or mid-header is reported
incomplete, not an error: no frame is extracted (a frame needs the full
5-byte header and `5 + length` buffered bytes), the whole unconsumed
prefix is retained, and once the remaining bytes arrive decoding
resumes and yields exactly the frame. -/
theorem framer_truncated_incomplete (flags : Nat) (payload p s : List Nat)
    (hf : flags < 256) (hl : payload.length < 2 ^ 31)
    (hsplit : p ++ s = encodeFrame flags payload)
    (hp : p.length < (encodeFrame flags payload).length) :
    extractAll p = ([], p) ∧ framerRun [p, s] = ([⟨flags, payload⟩], []) := by
  have hl' : payload.length < 2 ^ 32 := lt_trans hl (by norm_num)
  constructor
  · by_cases hshort : p.length < 5
    · exact extractAll_short p hshort
    · rcases p with _ | ⟨c0, _ | ⟨c1, _ | ⟨c2, _ | ⟨c3, _ | ⟨c4, prest⟩⟩⟩⟩⟩
      · simp at hshort
      · simp at hshort
      · simp at hshort
      · simp at hshort
      · simp at hshort
      · have hsplit' := hsplit
        simp only [encodeFrame, be4, List.cons_append, List.nil_append,
          List.cons.injEq] at hsplit'
        obtain ⟨h0, h1, h2, h3, h4, htail⟩ := hsplit'
        rw [extractAll_cons5]
        have hflen : frameLength c1 c2 c3 c4 = payload.length := by
          rw [h1, h2, h3, h4]
          exact frameLength_be4 payload.length hl'
        rw [hflen]
        have hplen : (encodeFrame flags payload).length = payload.length + 5 := by
          simp [encodeFrame, be4]
        have hnle : ¬ payload.length ≤ prest.length := by
          simp only [List.length_cons] at hp
          omega
        simp [hnle]
  · rw [framerRun_eq]
    have hfl : List.flatten [p, s] = p ++ s := by simp
    rw [hfl, hsplit, ← List.append_nil (encodeFrame flags payload),
      extractAll_encodeFrame flags payload [] hl']
    simp [Nat.mod_eq_of_lt hf]
    exact ⟨rfl, rfl⟩

/-- Witness for C8: the frame `[0x00|len 2|7 8]` truncated after three
header bytes and then completed. -/
theorem framer_truncated_incomplete_witness :
    extractAll [0, 0, 0] = ([], [0, 0, 0]) ∧
      framerRun [[0, 0, 0], [0, 2, 7, 8]] = ([⟨0, [7, 8]⟩], []) :=
  framer_truncated_incomplete 0 [7, 8] [0, 0, 0] [0, 2, 7, 8]
    (by decide) (by decide) (by decide) (by decide)

/-! ## Parse-structure lemmas (towards C5) -/

lemma parseGo_nil (fuel off : Nat) : parseGo fuel [] off = [] := by
  cases fuel <;> rfl

/-- Two ample fuels parse the same fields. -/
lemma parseGo_congr :
    ∀ f1 f2 rem off, rem.length ≤ f1 → rem.length ≤ f2 →
      parseGo f1 rem off = parseGo f2 rem off := by
  intro f1
  induction f1 with
  | zero =>
    intro f2 rem off h1 _
    have hb : rem = [] := List.eq_nil_of_length_eq_zero (by omega)
    subst hb
    rw [parseGo_nil, parseGo_nil]
  | succ f1 ih =>
    intro f2 rem off h1 h2
    cases f2 with
    | zero =>
      have hb : rem = [] := List.eq_nil_of_length_eq_zero (by omega)
      subst hb
      rw [parseGo_nil, parseGo_nil]
    | succ f2 =>
      rcases rem with _ | ⟨r0, rrest⟩
      · rw [parseGo_nil, parseGo_nil]
      · simp only [parseGo, List.isEmpty_cons, Bool.false_eq_true, if_false]
        have hpos : 1 ≤ (decodeVarintGo (r0 :: rrest) 0).2 := decodeVarintGo_pos r0 rrest 0
        have hlen : (r0 :: rrest).length = rrest.length + 1 := by simp
        by_cases hw2 : (decodeVarintGo (r0 :: rrest) 0).1 % 8 = 2
        · simp only [hw2, if_true]
          rw [ih f2 _ _ (by simp [List.length_drop]; omega) (by simp [List.length_drop]; omega)]
        · simp only [hw2, if_false]
          by_cases hw0 : (decodeVarintGo (r0 :: rrest) 0).1 % 8 = 0
          · simp only [hw0, if_true]
            rw [ih f2 _ _ (by simp [List.length_drop]; omega)
              (by simp [List.length_drop]; omega)]
          · simp only [hw0, if_false]
            by_cases hw1 : (decodeVarintGo (r0 :: rrest) 0).1 % 8 = 1
            · simp only [hw1, if_true]
              rw [ih f2 _ _ (by simp [List.length_drop]; omega)
                (by simp [List.length_drop]; omega)]
            · simp only [hw1, if_false]
              by_cases hw5 : (decodeVarintGo (r0 :: rrest) 0).1 % 8 = 5
              · simp only [hw5, if_true]
                rw [ih f2 _ _ (by simp [List.length_drop]; omega)
                  (by simp [List.length_drop]; omega)]
              · simp only [hw5, if_false]

/-- The wire-type-2 tag byte for a small field number. -/
lemma tagByte_eq (n w : Nat) (hn : n < 16) (hw : w < 8) :
    ((n <<< 3) ||| w) % 256 = 8 * n + w := by
  rw [Nat.shiftLeft_eq]
  rw [or_eq_add_of_lt 3 ⟨n, rfl⟩ (by norm_num; omega)]
  norm_num
  omega

/-- A single-byte varint decode. -/
lemma decodeVarintGo_single (b : Nat) (hb : b < 128) (rest : List Nat) :
    decodeVarintGo (b :: rest) 0 = (b, 1) := by
  simp only [decodeVarintGo, and128_eq_zero hb, if_true, if_pos rfl]
  rw [and127_eq_mod, Nat.mod_eq_of_lt hb, Nat.shiftLeft_zero]

/-- Parsing a wire-type-2 field (message or string) from the front of a
buffer: one field with the payload bytes, then the parse of the rest. -/
lemma parseFrom_msgField (n : Nat) (hn : n < 16) (d rest : List Nat) (off : Nat) :
    parseFrom (encodeMessageField n d ++ rest) off =
      (⟨n, 2, .bytes d, off, 1 + (encodeVarint d.length).length + d.length⟩ : ParsedField) ::
        parseFrom rest (off + (1 + (encodeVarint d.length).length + d.length)) := by
  have htag : ((n <<< 3) ||| 2) % 256 = 8 * n + 2 := tagByte_eq n 2 hn (by norm_num)
  have hts : encodeMessageField n d ++ rest =
      (8 * n + 2) :: (encodeVarint d.length ++ (d ++ rest)) := by
    simp [encodeMessageField, htag, List.append_assoc]
  rw [hts]
  unfold parseFrom
  rw [List.length_cons]
  simp only [parseGo, List.isEmpty_cons, Bool.false_eq_true, if_false]
  rw [decodeVarintGo_single (8 * n + 2) (by omega)]
  have hfn : (8 * n + 2) / 8 = n := by omega
  have hw : (8 * n + 2) % 8 = 2 := by omega
  simp only [List.drop_succ_cons, List.drop_zero, hfn, hw, if_pos rfl]
  rw [decodeVarintGo_encodeVarint d.length (d ++ rest) 0]
  simp only [Nat.shiftLeft_zero, List.drop_left, List.take_left, if_true]
  have hdrop : List.drop (1 + (encodeVarint d.length).length + d.length)
      ((8 * n + 2) :: (encodeVarint d.length ++ (d ++ rest))) = rest := by
    have h1 : 1 + (encodeVarint d.length).length + d.length =
        (encodeVarint d.length).length + d.length + 1 := by omega
    rw [h1, List.drop_succ_cons, ← List.append_assoc,
      show (encodeVarint d.length).length + d.length = (encodeVarint d.length ++ d).length by simp]
    exact List.drop_left _ _
  rw [hdrop]
  congr 1
  exact parseGo_congr (encodeVarint d.length ++ (d ++ rest)).length rest.length rest
    (off + (1 + (encodeVarint d.length).length + d.length))
    (by simp [List.length_append]; omega) le_rfl
lemma encodeStringField_eq_msgField (n : Nat) (v : List Nat) :
    encodeStringField n v = encodeMessageField n v := rfl

lemma fm_encodeStringField_of_ne (n : Nat) (v : List Nat) (h : v ≠ []) :
    FetchModels.encodeStringField n v = encodeMessageField n v := by
  simp [FetchModels.encodeStringField, encodeMessageField, h]

/-- A standalone wire-type-2 field parses to exactly one entry. -/
lemma parseProtoFields_msgField (n : Nat) (hn : n < 16) (d : List Nat) :
    parseProtoFields (encodeMessageField n d) =
      [⟨n, 2, .bytes d, 0, 1 + (encodeVarint d.length).length + d.length⟩] := by
  have h := parseFrom_msgField n hn d [] 0
  rw [List.append_nil] at h
  unfold parseProtoFields
  rw [h]
  simp [parseFrom, parseGo_nil]

/-- A standalone bool field (field 4) parses to one varint entry. -/
lemma parseProtoFields_boolField (b : Bool) :
    parseProtoFields (FetchModels.encodeBoolField 4 b) =
      [⟨4, 0, .varint (if b then 1 else 0), 0, 2⟩] := by
  cases b <;> decide

/-- A standalone 8-byte wire-type-1 field with tag byte 17 (field 2)
parses to one bytes entry. -/
lemma parseProtoFields_doubleField (bs : List Nat) (h : bs.length = 8) :
    parseProtoFields (17 :: bs) = [⟨2, 1, .bytes bs, 0, 8⟩] := by
  unfold parseProtoFields parseFrom
  rw [List.length_cons]
  simp only [parseGo, List.isEmpty_cons, Bool.false_eq_true, if_false]
  rw [decodeVarintGo_single 17 (by norm_num)]
  norm_num
  constructor
  · omega
  · rw [show (8 : Nat) = bs.length from h.symm, List.drop_length]
    exact parseGo_nil _ _
/-! ## IEEE-754 binary64 lemmas (towards C5) -/

lemma leBytes8_length (n : Nat) : (leBytes8 n).length = 8 := rfl

lemma leBitsOf_leBytes8 (n : Nat) (h : n < 2 ^ 64) : leBitsOf (leBytes8 n) = n := by
  simp only [leBitsOf, leBytes8, List.getD_cons_zero, List.getD_cons_succ]
  norm_num at h ⊢
  omega

/-- The quotient `m * 2^52 / 2^log2 m` is the exact 53-bit significand
for `1 ≤ m ≤ 2^53`. -/
lemma float64_q (m : Nat) (h1 : 1 ≤ m) (h2 : m ≤ 2 ^ 53) :
    Nat.log2 m ≤ 53 ∧
    2 ^ 52 ≤ m * 2 ^ 52 / 2 ^ Nat.log2 m ∧
    m * 2 ^ 52 / 2 ^ Nat.log2 m < 2 ^ 53 ∧
    m * 2 ^ 52 / 2 ^ Nat.log2 m * 2 ^ Nat.log2 m = m * 2 ^ 52 := by
  set e := Nat.log2 m with he
  have hle : 2 ^ e ≤ m := Nat.log2_self_le (by omega)
  have hlt : m < 2 ^ (e + 1) := Nat.lt_log2_self
  have he53 : e ≤ 53 := by
    by_contra hc
    have h54 : (2 : Nat) ^ 54 ≤ 2 ^ e := Nat.pow_le_pow_right (by norm_num) (by omega)
    have : (2 : Nat) ^ 54 ≤ 2 ^ 53 := le_trans h54 (le_trans hle h2)
    norm_num at this
  by_cases he52 : e ≤ 52
  · have hsplit : (2 : Nat) ^ 52 = 2 ^ (52 - e) * 2 ^ e := by
      rw [← pow_add]
      congr 1
      omega
    have hexact : m * 2 ^ 52 = m * 2 ^ (52 - e) * 2 ^ e := by
      rw [hsplit]; ring
    have hdiv : m * 2 ^ 52 / 2 ^ e = m * 2 ^ (52 - e) := by
      rw [hexact]
      exact Nat.mul_div_cancel _ (Nat.two_pow_pos e)
    refine ⟨he53, ?_, ?_, ?_⟩
    · rw [hdiv, hsplit]
      calc (2 : Nat) ^ (52 - e) * 2 ^ e ≤ 2 ^ (52 - e) * m :=
            Nat.mul_le_mul_left _ hle
        _ = m * 2 ^ (52 - e) := Nat.mul_comm _ _
    · rw [hdiv]
      calc m * 2 ^ (52 - e) < 2 ^ (e + 1) * 2 ^ (52 - e) :=
            (Nat.mul_lt_mul_right (Nat.two_pow_pos _)).mpr hlt
        _ = 2 ^ 53 := by rw [← pow_add]; congr 1; omega
    · rw [hdiv, ← hexact]
  · have he' : e = 53 := by omega
    have h53le : (2 : Nat) ^ 53 ≤ m := by rw [← he']; exact hle
    have hm : m = 2 ^ 53 := le_antisymm h2 h53le
    have hdiv : m * 2 ^ 52 / 2 ^ e = 2 ^ 52 := by
      rw [hm, he', Nat.mul_div_cancel_left _ (Nat.two_pow_pos 53)]
    refine ⟨he53, by rw [hdiv], by rw [hdiv]; norm_num, ?_⟩
    rw [hdiv, hm, he', ← pow_add, ← pow_add]

set_option maxRecDepth 4000 in
/-- Decoding the bit pattern built for magnitude `m` and sign `s`
recovers the signed integer. -/
lemma float64_mag (m s : Nat) (h1 : 1 ≤ m) (h2 : m ≤ 2 ^ 53) :
    float64FromBits (s * 2 ^ 63 + (Nat.log2 m + 1023) * 2 ^ 52 +
        (m * 2 ^ 52 / 2 ^ Nat.log2 m - 2 ^ 52)) =
      if s = 1 then -(m : Int) else (m : Int) := by
  obtain ⟨he53, hq1, hq2, hqe⟩ := float64_q m h1 h2
  set e := Nat.log2 m with he
  set q := m * 2 ^ 52 / 2 ^ e with hqdef
  have h5253 : (2 : Nat) ^ 53 = 2 * 2 ^ 52 := by ring
  have hfrac : q - 2 ^ 52 < 2 ^ 52 := by omega
  set frac := q - 2 ^ 52 with hfracdef
  set B := s * 2 ^ 63 + (e + 1023) * 2 ^ 52 + frac with hB
  have c52pos : 0 < (2 : Nat) ^ 52 := Nat.two_pow_pos 52
  have hfrac' : frac < 4503599627370496 := by
    have := hfrac
    norm_num at this
    exact this
  have hBlit : B = s * 9223372036854775808 + (e + 1023) * 4503599627370496 + frac := by
    rw [hB]
    norm_num
  have e0 : ¬ B % 2 ^ 63 = 0 := by
    rw [hBlit]
    norm_num
    omega
  have e2 : B / 2 ^ 63 = s := by
    rw [hBlit]
    norm_num
    omega
  have e3 : B / 2 ^ 52 % 2 ^ 11 = e + 1023 := by
    rw [hBlit]
    norm_num
    omega
  have e4 : B % 2 ^ 52 = frac := by
    rw [hBlit]
    norm_num
    omega
  have hE : e + 1023 - 1023 = e := by omega
  have hq52 : 2 ^ 52 + frac = q := by omega
  have hmag : (if 52 ≤ e then q <<< (e - 52) else q / 2 ^ (52 - e)) = m := by
    by_cases h52 : 52 ≤ e
    · simp only [h52, if_true]
      rw [Nat.shiftLeft_eq]
      have hsplit : (2 : Nat) ^ e = 2 ^ (e - 52) * 2 ^ 52 := by
        have he52' : e = e - 52 + 52 := by omega
        conv_lhs => rw [he52']
        rw [pow_add]
      have hqq : q * 2 ^ (e - 52) * 2 ^ 52 = m * 2 ^ 52 := by
        rw [← hqe, hsplit]
        ring
      exact Nat.eq_of_mul_eq_mul_right c52pos hqq
    · simp only [h52, if_false]
      have hsplit : (2 : Nat) ^ 52 = 2 ^ (52 - e) * 2 ^ e := by
        have he52' : (52 : Nat) = 52 - e + e := by omega
        conv_lhs => rw [he52']
        rw [pow_add]
      have hqm : q = m * 2 ^ (52 - e) := by
        refine Nat.eq_of_mul_eq_mul_right (Nat.two_pow_pos e) ?_
        rw [hqe, hsplit]
        ring
      rw [hqm, Nat.mul_div_cancel _ (Nat.two_pow_pos _)]
  unfold float64FromBits
  rw [if_neg e0]
  simp only [e2, e3, e4, hE, hq52, hmag]

/-- The bit pattern fits in 64 bits on the exactly-representable
domain. -/
lemma float64Bits_lt (x : Int) (h : x.natAbs ≤ 2 ^ 53) : float64Bits x < 2 ^ 64 := by
  unfold float64Bits
  by_cases hx : x = 0
  · simp [hx]
  · rw [if_neg hx]
    obtain ⟨he53, hq1, hq2, hqe⟩ := float64_q x.natAbs (Int.natAbs_pos.mpr hx) h
    have h5253 : (2 : Nat) ^ 53 = 2 * 2 ^ 52 := by ring
    by_cases hxn : x < 0 <;> simp only [hxn, if_true, if_false] <;>
      (generalize hgq : x.natAbs * 2 ^ 52 / 2 ^ Nat.log2 x.natAbs = q at hq2 ⊢;
       generalize hge : Nat.log2 x.natAbs = ex at he53 ⊢;
       norm_num;
       omega)

/-- C5 kernel for numbers: the double codec round-trips on integers
doubles represent exactly. -/
lemma float64_roundtrip (x : Int) (h : x.natAbs ≤ 2 ^ 53) :
    float64FromBits (float64Bits x) = x := by
  by_cases hx : x = 0
  · subst hx
    have h0 : float64Bits 0 = 0 := by simp [float64Bits]
    rw [h0]
    simp [float64FromBits]
  · unfold float64Bits
    rw [if_neg hx]
    have hm1 : 1 ≤ x.natAbs := Int.natAbs_pos.mpr hx
    by_cases hneg : x < 0
    · simp only [hneg, if_true]
      rw [float64_mag x.natAbs 1 hm1 h]
      norm_num
      rw [abs_of_neg hneg]
      ring
    · simp only [hneg, if_false]
      rw [float64_mag x.natAbs 0 hm1 h]
      norm_num
      omega
/-! ## Dynamic-value round-trip machinery -/

lemma encodeVarint_length_pos (L : Nat) : 1 ≤ (encodeVarint L).length := by
  rw [encodeVarint_eq]
  split <;> simp

/-- A standalone wire-type-2 field parses to one entry at any starting
offset. -/
lemma parseFrom_msgField_single (n : Nat) (hn : n < 16) (d : List Nat) (off : Nat) :
    parseFrom (encodeMessageField n d) off =
      [⟨n, 2, .bytes d, off, 1 + (encodeVarint d.length).length + d.length⟩] := by
  have h := parseFrom_msgField n hn d [] off
  rw [List.append_nil] at h
  rw [h]
  simp [parseFrom, parseGo_nil]

/-- The nesting depth never exceeds the encoded length (plus one for
the empty null encoding). -/
lemma depth_le_encode (N : Nat) :
    (∀ v : DynValue, sizeOf v ≤ N →
      depthV v ≤ (FetchModels.encodeProtobufValue v).length + 1) ∧
    (∀ xs : DynList, sizeOf xs ≤ N →
      depthL xs ≤ (FetchModels.encodeListItems xs).length) ∧
    (∀ kvs : DynObj, sizeOf kvs ≤ N →
      depthO kvs ≤ (FetchModels.encodeStructItems kvs).length) := by
  induction N using Nat.strong_induction_on with
  | _ N ih =>
    refine ⟨?_, ?_, ?_⟩
    · intro v hv
      cases v with
      | null => simp [depthV]
      | num n => simp [depthV]
      | str s => simp [depthV]
      | bool b => simp [depthV]
      | list xs =>
        have hsz : sizeOf (DynValue.list xs) = 1 + sizeOf xs := by simp
        have hQ := (ih (sizeOf xs) (by omega)).2.1 xs le_rfl
        have hev := encodeVarint_length_pos (FetchModels.encodeListItems xs).length
        simp only [depthV, FetchModels.encodeProtobufValue, encodeMessageField,
          List.length_cons, List.length_append]
        omega
      | obj kvs =>
        have hsz : sizeOf (DynValue.obj kvs) = 1 + sizeOf kvs := by simp
        have hR := (ih (sizeOf kvs) (by omega)).2.2 kvs le_rfl
        have hev := encodeVarint_length_pos (FetchModels.encodeStructItems kvs).length
        simp only [depthV, FetchModels.encodeProtobufValue, encodeMessageField,
          List.length_cons, List.length_append]
        omega
    · intro xs hxs
      cases xs with
      | nil => simp [depthL, FetchModels.encodeListItems]
      | cons x tl =>
        have hsz : sizeOf (DynList.cons x tl) = 1 + sizeOf x + sizeOf tl := by simp
        have hP := (ih (sizeOf x) (by omega)).1 x le_rfl
        have hQ := (ih (sizeOf tl) (by omega)).2.1 tl le_rfl
        have hev := encodeVarint_length_pos (FetchModels.encodeProtobufValue x).length
        simp only [depthL, FetchModels.encodeListItems, encodeMessageField,
          List.length_cons, List.length_append]
        omega
    · intro kvs hkvs
      cases kvs with
      | nil => simp [depthO, FetchModels.encodeStructItems]
      | cons k v tl =>
        have hsz : sizeOf (DynObj.cons k v tl) = 1 + sizeOf k + sizeOf v + sizeOf tl := by
          simp
        have hP := (ih (sizeOf v) (by omega)).1 v le_rfl
        have hR := (ih (sizeOf tl) (by omega)).2.2 tl le_rfl
        have hev := encodeVarint_length_pos
          (FetchModels.encodeStringField 1 k ++
            encodeMessageField 2 (FetchModels.encodeProtobufValue v)).length
        have hev2 := encodeVarint_length_pos (FetchModels.encodeProtobufValue v).length
        simp only [depthO, FetchModels.encodeStructItems, encodeMessageField,
          List.length_cons, List.length_append]
        omega
/-- Decoding a struct entry recovers its key and value bytes (an empty
key is skipped on encode and restored as the default empty key on
decode). -/
lemma parse_structEntry (k vb : List Nat) :
    entryKey (parseProtoFields
        (FetchModels.encodeStringField 1 k ++ encodeMessageField 2 vb)) = k ∧
    entryValBytes (parseProtoFields
        (FetchModels.encodeStringField 1 k ++ encodeMessageField 2 vb)) = vb := by
  by_cases hk : k = []
  · subst hk
    have hs : FetchModels.encodeStringField 1 [] = [] := rfl
    rw [hs, List.nil_append]
    unfold parseProtoFields
    rw [parseFrom_msgField_single 2 (by norm_num) vb 0]
    exact ⟨rfl, rfl⟩
  · rw [fm_encodeStringField_of_ne 1 k hk]
    unfold parseProtoFields
    rw [parseFrom_msgField 1 (by norm_num) k (encodeMessageField 2 vb) 0,
      parseFrom_msgField_single 2 (by norm_num) vb
        (0 + (1 + (encodeVarint k.length).length + k.length))]
    exact ⟨rfl, rfl⟩
/-- Round-trip kernel: decoding an encoded well-formed value with any
sufficient fuel recovers the value (mutually over values, list items
and struct entries). -/
lemma decode_encode_grand (N : Nat) :
    (∀ v : DynValue, okV v = true → sizeOf v ≤ N → ∀ f : Nat, depthV v ≤ f + 1 →
      decodeDyn (f + 1) (FetchModels.encodeProtobufValue v) = v) ∧
    (∀ xs : DynList, okL xs = true → sizeOf xs ≤ N → ∀ g off : Nat, depthL xs ≤ g →
      mapFieldsToList (fun b => decodeDyn g b)
        (parseFrom (FetchModels.encodeListItems xs) off) = xs) ∧
    (∀ kvs : DynObj, okO kvs = true → sizeOf kvs ≤ N → ∀ g off : Nat, depthO kvs ≤ g →
      mapFieldsToObj (fun b => decodeDyn g b)
        (parseFrom (FetchModels.encodeStructItems kvs) off) = kvs) := by
  induction N using Nat.strong_induction_on with
  | _ N ih =>
    refine ⟨?_, ?_, ?_⟩
    · intro v hok hv f hf
      cases v with
      | null => rfl
      | num n =>
        have h53 : n.natAbs ≤ 2 ^ 53 := by
          have := hok
          simp [okV] at this
          exact this
        have henc : FetchModels.encodeProtobufValue (.num n) =
            17 :: leBytes8 (float64Bits n) := rfl
        rw [henc]
        simp only [decodeDyn]
        rw [parseProtoFields_doubleField _ (leBytes8_length _)]
        show DynValue.num (float64FromBits (leBitsOf (leBytes8 (float64Bits n)))) =
          DynValue.num n
        rw [leBitsOf_leBytes8 _ (float64Bits_lt n h53), float64_roundtrip n h53]
      | str s =>
        have hne : s ≠ [] := by
          have := hok
          simp [okV] at this
          intro hc
          rw [hc] at this
          simp at this
        have henc : FetchModels.encodeProtobufValue (.str s) =
            FetchModels.encodeStringField 3 s := rfl
        rw [henc, fm_encodeStringField_of_ne 3 s hne]
        simp only [decodeDyn]
        have hp : parseProtoFields (encodeMessageField 3 s) =
            [⟨3, 2, .bytes s, 0, 1 + (encodeVarint s.length).length + s.length⟩] := by
          unfold parseProtoFields
          exact parseFrom_msgField_single 3 (by norm_num) s 0
        rw [hp]
      | bool b =>
        have henc : FetchModels.encodeProtobufValue (.bool b) =
            FetchModels.encodeBoolField 4 b := rfl
        rw [henc]
        simp only [decodeDyn]
        rw [parseProtoFields_boolField b]
        show DynValue.bool ((if b then 1 else 0) == 1) = DynValue.bool b
        cases b <;> rfl
      | list xs =>
        have hokl : okL xs = true := by
          have := hok
          simp [okV] at this
          exact this
        have hsz : sizeOf (DynValue.list xs) = 1 + sizeOf xs := by simp
        have hdep : depthL xs ≤ f := by
          have : depthV (DynValue.list xs) = 1 + depthL xs := rfl
          omega
        have henc : FetchModels.encodeProtobufValue (.list xs) =
            encodeMessageField 6 (FetchModels.encodeListItems xs) := rfl
        rw [henc]
        simp only [decodeDyn]
        have hp : parseProtoFields (encodeMessageField 6 (FetchModels.encodeListItems xs)) =
            [⟨6, 2, .bytes (FetchModels.encodeListItems xs), 0,
              1 + (encodeVarint (FetchModels.encodeListItems xs).length).length +
                (FetchModels.encodeListItems xs).length⟩] := by
          unfold parseProtoFields
          exact parseFrom_msgField_single 6 (by norm_num) _ 0
        rw [hp]
        show DynValue.list (mapFieldsToList (fun item => decodeDyn f item)
          (parseProtoFields (FetchModels.encodeListItems xs))) = DynValue.list xs
        congr 1
        unfold parseProtoFields
        exact (ih (sizeOf xs) (by omega)).2.1 xs hokl le_rfl f 0 hdep
      | obj kvs =>
        have hoko : okO kvs = true := by
          have := hok
          simp [okV] at this
          exact this
        have hsz : sizeOf (DynValue.obj kvs) = 1 + sizeOf kvs := by simp
        have hdep : depthO kvs ≤ f := by
          have : depthV (DynValue.obj kvs) = 1 + depthO kvs := rfl
          omega
        have henc : FetchModels.encodeProtobufValue (.obj kvs) =
            encodeMessageField 5 (FetchModels.encodeStructItems kvs) := rfl
        rw [henc]
        simp only [decodeDyn]
        have hp : parseProtoFields (encodeMessageField 5 (FetchModels.encodeStructItems kvs)) =
            [⟨5, 2, .bytes (FetchModels.encodeStructItems kvs), 0,
              1 + (encodeVarint (FetchModels.encodeStructItems kvs).length).length +
                (FetchModels.encodeStructItems kvs).length⟩] := by
          unfold parseProtoFields
          exact parseFrom_msgField_single 5 (by norm_num) _ 0
        rw [hp]
        show DynValue.obj (mapFieldsToObj (fun vb => decodeDyn f vb)
          (parseProtoFields (FetchModels.encodeStructItems kvs))) = DynValue.obj kvs
        congr 1
        unfold parseProtoFields
        exact (ih (sizeOf kvs) (by omega)).2.2 kvs hoko le_rfl f 0 hdep
    · intro xs hok hxs g off hg
      cases xs with
      | nil => rfl
      | cons x tl =>
        have hsz : sizeOf (DynList.cons x tl) = 1 + sizeOf x + sizeOf tl := by simp
        have hparts : okV x = true ∧ okL tl = true := by
          have := hok
          simp [okL] at this
          exact this
        have hdep : 1 + depthV x + depthL tl ≤ g := hg
        obtain ⟨g', rfl⟩ : ∃ g', g = g' + 1 := ⟨g - 1, by omega⟩
        have henc : FetchModels.encodeListItems (.cons x tl) =
            encodeMessageField 1 (FetchModels.encodeProtobufValue x) ++
              FetchModels.encodeListItems tl := rfl
        rw [henc, parseFrom_msgField 1 (by norm_num) _ _ off]
        simp only [mapFieldsToList]
        congr 1
        · exact (ih (sizeOf x) (by omega)).1 x hparts.1 le_rfl g' (by omega)
        · exact (ih (sizeOf tl) (by omega)).2.1 tl hparts.2 le_rfl (g' + 1) _ (by omega)
    · intro kvs hok hkvs g off hg
      cases kvs with
      | nil => rfl
      | cons k v tl =>
        have hsz : sizeOf (DynObj.cons k v tl) = 1 + sizeOf k + sizeOf v + sizeOf tl := by
          simp
        have hparts : okV v = true ∧ okO tl = true := by
          have := hok
          simp [okO] at this
          exact ⟨this.1.2, this.2⟩
        have hdep : 1 + depthV v + depthO tl ≤ g := hg
        obtain ⟨g', rfl⟩ : ∃ g', g = g' + 1 := ⟨g - 1, by omega⟩
        have henc : FetchModels.encodeStructItems (.cons k v tl) =
            encodeMessageField 1
              (FetchModels.encodeStringField 1 k ++
                encodeMessageField 2 (FetchModels.encodeProtobufValue v)) ++
              FetchModels.encodeStructItems tl := rfl
        rw [henc, parseFrom_msgField 1 (by norm_num) _ _ off]
        simp only [mapFieldsToObj]
        obtain ⟨hkey, hval⟩ := parse_structEntry k (FetchModels.encodeProtobufValue v)
        rw [hkey, hval]
        congr 1
        · exact (ih (sizeOf v) (by omega)).1 v hparts.1 le_rfl g' (by omega)
        · exact (ih (sizeOf tl) (by omega)).2.2 tl hparts.2 le_rfl (g' + 1) _ (by omega)
/-! ## Claim C5 -/

/-- C5 counterexample: `encodeProtobufValue` does NOT emit a null-marker
field for `null` — it emits no bytes at all (`encodeUint32Field(1, 0)`
skips zero values), and the empty string also encodes to no bytes
(`encodeStringField` skips empty strings).  The two encodings collide,
so no decoder can reproduce both: the spec-modelled `decodeDynamicValue`
maps the encoding of `""` back to `null`, refuting the claimed
round-trip for every JSON-like value. -/
theorem dynamic_value_null_collision :
    FetchModels.encodeProtobufValue (.str []) = FetchModels.encodeProtobufValue .null ∧
    FetchModels.encodeProtobufValue .null = ([] : List Nat) ∧
    decodeDynamicValue (FetchModels.encodeProtobufValue (.str [])) = .null ∧
    DynValue.str [] ≠ .null := by
  refine ⟨rfl, rfl, rfl, by decide⟩

/-- C5 (amended): `encodeProtobufValue` maps null and the empty string
to zero bytes (no marker field), numbers to a field-2 fixed64 double,
non-empty strings to a field-3 length-delimited value, booleans to a
field-4 varint, lists to a field-6 message of wrapped sub-messages and
objects to a field-5 message of ordered key/value entry sub-messages;
and for every JSON-like value whose strings are all non-empty byte
sequences and whose numbers are integers exactly representable as
doubles (`|n| ≤ 2^53`), decoding the encoding reproduces the value
exactly — key order preserved, no precision loss. -/
theorem dynamic_value_roundtrip (v : DynValue) (hok : okV v = true) :
    decodeDynamicValue (FetchModels.encodeProtobufValue v) = v := by
  unfold decodeDynamicValue
  have hd := (depth_le_encode (sizeOf v)).1 v le_rfl
  exact (decode_encode_grand (sizeOf v)).1 v hok le_rfl
    ((FetchModels.encodeProtobufValue v).length + 1) (by omega)

/-- Witness for the amended C5 at a nested concrete value (object with
a negative number, an empty key, a list, a boolean and a non-empty
string). -/
theorem dynamic_value_roundtrip_witness :
    decodeDynamicValue (FetchModels.encodeProtobufValue
        (.obj (.cons [97] (.num (-3))
          (.cons [] (.list (.cons (.bool true) (.cons (.str [104, 105]) .nil)))
            .nil)))) =
      .obj (.cons [97] (.num (-3))
        (.cons [] (.list (.cons (.bool true) (.cons (.str [104, 105]) .nil)))
          .nil)) :=
  dynamic_value_roundtrip _ (by decide)

end CursorAuth
